import Mathlib

/-!
Verification of lodash-deep (src/lodash-deep.js) against its specification.

The library provides path-addressed access to nested JavaScript structures.
This file gives a shallow embedding of the relevant functions:

* `getProperties` — the path parser (source lines 196-243);
* `deepEscapePropertyName` — segment escaping (lines 154-158);
* `deepIn` / `deepHas` — existence checks along a path (lines 20-33, 40-53);
* `deepGet` — value retrieval (lines 60-70);
* `deepSet` — assignment with autovivification (lines 95-110);
* `deepMapValues` — structure-preserving deep map (lines 167-177), once as a
  value-level function and once in store-passing style so that the in-place
  mutation contract is expressible.

JavaScript strings are modelled as `List Char`; JavaScript values as the
tree type `JSVal`, whose object nodes carry an own-property list and a
(flattened) prototype-chain property list, so that the `in` operator versus
`hasOwnProperty` distinction of the source is faithful.
-/

/-- Property names and path segments are JavaScript strings, modelled as lists of characters. -/
abbrev PropName : Type := List Char

/-- Tag distinguishing the object-like JavaScript values the library cares
about: plain objects, arrays, dates, regular expressions.  lodash `isObject`
is true for all four; `isDate` / `isRegExp` single out the last two, which
`deepMapValues` treats as leaves. -/
inductive JSTag where
  | objT
  | arrT
  | dateT
  | regexT
deriving DecidableEq, Repr

/-- JavaScript values as the library observes them.  A `node` carries its tag,
its own (enumerable) properties, and the properties exposed through its
prototype chain, flattened into one list.  Primitives are leaves. -/
inductive JSVal where
  | undefined : JSVal
  | num : Int → JSVal
  | str : PropName → JSVal
  | node : JSTag → List (PropName × JSVal) → List (PropName × JSVal) → JSVal
deriving Repr

/-- Path input union of the source: `getProperties` accepts an array (returned
unchanged), a string (scanned), or anything else (yielding the empty path). -/
inductive PathInput where
  | arr : List PropName → PathInput
  | str : List Char → PathInput
  | other : PathInput

/-- The character scan of `getProperties` (source lines 205-241): state is the
escape flag, the list of completed segments, and the current segment buffer.
A "\" not currently escaped sets the flag and is dropped; a "\" or "." while
escaped is appended literally; an un-escaped "." pushes the buffer and resets
it; every other character is appended and clears the flag.  At end of input
the final buffer is pushed (line 241). -/
def scanPath : Bool → List PropName → PropName → List Char → List PropName
  | _, path, step, [] => path ++ [step]
  | escape, path, step, ch :: rest =>
    if ch = '\\' then
      if escape then scanPath false path (step ++ [ch]) rest
      else scanPath true path step rest
    else if ch = '.' then
      if escape then scanPath false path (step ++ [ch]) rest
      else scanPath false (path ++ [step]) [] rest
    else scanPath false path (step ++ [ch]) rest

/-- `getProperties` (source lines 196-243): an array passes through unchanged,
a non-array non-string yields `[]`, and a string is scanned character by
character. -/
def getProperties : PathInput → List PropName
  | .arr l => l
  | .str s => scanPath false [] [] s
  | .other => []

/-- `deepEscapePropertyName` (source lines 154-158): replace every "\" by
"\\", then every "." by "\.".  Both global regex replaces act on single
characters, so each pass is a character-wise flat map. -/
def deepEscapePropertyName (propertyName : List Char) : List Char :=
  (propertyName.flatMap (fun c => if c = '\\' then ['\\', '\\'] else [c])).flatMap
    (fun c => if c = '.' then ['\\', '.'] else [c])

/-- Association-list lookup, first binding wins: JS property tables hold at
most one binding per key, and all lists built here preserve that. -/
def assocGet : List (PropName × JSVal) → PropName → Option JSVal
  | [], _ => none
  | (k, v) :: rest, key => if k = key then some v else assocGet rest key

/-- Association-list write: overwrite the first binding for the key in place,
otherwise append, matching JS property-creation order. -/
def assocSet : List (PropName × JSVal) → PropName → JSVal → List (PropName × JSVal)
  | [], key, v => [(key, v)]
  | (k, w) :: rest, key, v =>
    if k = key then (k, v) :: rest else (k, w) :: assocSet rest key v

/-- lodash `_.isObject`: true exactly for the object-like values (objects,
arrays, dates, regexes), false for primitives. -/
def isObject : JSVal → Bool
  | .node _ _ _ => true
  | _ => false

/-- lodash `_.isDate`. -/
def isDate : JSVal → Bool
  | .node .dateT _ _ => true
  | _ => false

/-- lodash `_.isRegExp`. -/
def isRegExp : JSVal → Bool
  | .node .regexT _ _ => true
  | _ => false

/-- The JS `in` operator on a modelled object: the key is an own property or
a prototype-chain property. -/
def propIn : JSVal → PropName → Bool
  | .node _ own inh, k => (assocGet own k).isSome || (assocGet inh k).isSome
  | _, _ => false

/-- `Object.prototype.hasOwnProperty`: own properties only. -/
def hasOwnProp : JSVal → PropName → Bool
  | .node _ own _, k => (assocGet own k).isSome
  | _, _ => false

/-- Property read `collection[property]`: own property first, then the
prototype chain, else `undefined`. -/
def getProp : JSVal → PropName → JSVal
  | .node _ own inh, k =>
    (match assocGet own k with
     | some v => v
     | none =>
       match assocGet inh k with
       | some v => v
       | none => .undefined)
  | _, _ => .undefined

/-- Property assignment `collection[property] = value`: creates or overwrites
an own property (a plain inherited data property is shadowed, as in JS).  On a
primitive receiver strict-mode JS throws a TypeError; no claim reaches that
case (all claims apply `deepSet` to container roots), and it is modelled as
the identity. -/
def setProp : JSVal → PropName → JSVal → JSVal
  | .node t own inh, k, v => .node t (assocSet own k v) inh
  | c, _, _ => c

/-- Writing back a child object that `deepSet` mutated in place: in JS the
mutation is visible through whichever slot (own or prototype-chain) the
property lookup `collection[property]` found the child in, so the updated
child is stored back into that slot. -/
def updateSlot : JSVal → PropName → JSVal → JSVal
  | .node t own inh, k, v =>
    if (assocGet own k).isSome then .node t (assocSet own k v) inh
    else if (assocGet inh k).isSome then .node t own (assocSet inh k v)
    else .node t (assocSet own k v) inh
  | c, _, _ => c

/-- The walk of `deepIn` (source lines 22-32) over an already-parsed path:
at each step the current value must be object-like and the segment reachable
via the `in` operator, and the walk descends through `collection[property]`. -/
def deepInProps : JSVal → List PropName → Bool
  | _, [] => true
  | c, k :: rest =>
    if isObject c && propIn c k then deepInProps (getProp c k) rest else false

/-- `deepIn` (source lines 20-33). -/
def deepIn (collection : JSVal) (propertyPath : PathInput) : Bool :=
  deepInProps collection (getProperties propertyPath)

/-- The walk of `deepHas` (source lines 42-52) over an already-parsed path:
identical to `deepInProps` except that reachability is `hasOwnProperty`. -/
def deepHasProps : JSVal → List PropName → Bool
  | _, [] => true
  | c, k :: rest =>
    if isObject c && hasOwnProp c k then deepHasProps (getProp c k) rest else false

/-- `deepHas` (source lines 40-53). -/
def deepHas (collection : JSVal) (propertyPath : PathInput) : Bool :=
  deepHasProps collection (getProperties propertyPath)

/-- `deepGet` (source lines 60-70): parse the path; if `deepIn` holds, fold
property reads over the path from the root, else return `undefined`. -/
def deepGet (collection : JSVal) (propertyPath : PathInput) : JSVal :=
  let properties := getProperties propertyPath
  if deepInProps collection properties then properties.foldl getProp collection
  else .undefined

/-- Decimal digit test. -/
def isDigitCh (c : Char) : Bool := '0' ≤ c && c ≤ '9'

/-- Models the JS test `segment % 1 === 0` of source line 104: the segment
string is coerced with ToNumber and compared modulo 1.  The empty string
coerces to 0 (true); an optional sign followed by digits and an optional
all-zero fraction is an integer (true); anything else used by the library's
callers is NaN or a non-integer (false).  Hexadecimal, exponent and
whitespace-padded numeric forms are not modelled. -/
def mod1IsZero (s : List Char) : Bool :=
  match s with
  | [] => true
  | _ =>
    let t := if s.head? = some '-' || s.head? = some '+' then s.tail else s
    let ds := t.takeWhile isDigitCh
    let rest := t.dropWhile isDigitCh
    if ds = [] then false
    else
      match rest with
      | [] => true
      | '.' :: fs => fs.all (· = '0')
      | _ => false

/-- The segment loop of `deepSet` (source lines 97-107) over a parsed path.
For the last segment, assign the value.  For a non-last segment: read
`currentObject[property]`; if it is not object-like, replace it with a fresh
array or object chosen by `properties[index + 1] % 1 === 0`; then descend and
continue, the descendant's mutations landing back in the slot the read found
the child in. -/
def deepSetProps : JSVal → List PropName → JSVal → JSVal
  | c, [], _ => c
  | c, [k], v => setProp c k v
  | c, k :: k2 :: rest, v =>
    let cur := getProp c k
    if isObject cur then updateSlot c k (deepSetProps cur (k2 :: rest) v)
    else
      setProp c k
        (deepSetProps (if mod1IsZero k2 then .node .arrT [] [] else .node .objT [] [])
          (k2 :: rest) v)

/-- `deepSet` (source lines 95-110). -/
def deepSet (collection : JSVal) (propertyPath : PathInput) (value : JSVal) : JSVal :=
  deepSetProps collection (getProperties propertyPath) value

mutual

/-- The recursion of `deepMapValues` (source lines 167-177) at the value
level.  A value that is object-like but neither a date nor a regex has every
own entry mapped recursively with the path extended by that entry's key
(`_.mapValues` followed by `_.extend` back onto the object leaves the own
keys in place and the prototype chain untouched); every other value is a
leaf and is replaced by `callback(value, path)`. -/
def deepMapGo (callback : JSVal → List PropName → JSVal) :
    JSVal → List PropName → JSVal
  | .node .objT own inh, properties =>
    .node .objT (deepMapEntries callback own properties) inh
  | .node .arrT own inh, properties =>
    .node .arrT (deepMapEntries callback own properties) inh
  | object, properties => callback object properties

/-- One pass of `_.mapValues` inside `deepMapValues`: each own entry's value
is mapped by the recursive call with path `properties ++ [key]`
(`_.flatten([properties, key])` in the source). -/
def deepMapEntries (callback : JSVal → List PropName → JSVal) :
    List (PropName × JSVal) → List PropName → List (PropName × JSVal)
  | [], _ => []
  | (k, v) :: rest, properties =>
    (k, deepMapGo callback v (properties ++ [k])) :: deepMapEntries callback rest properties

end

/-- `deepMapValues` (source lines 167-177): parse the incoming path prefix
(`undefined` on the public call, an array on recursive calls) and run the
recursion. -/
def deepMapValues (object : JSVal) (callback : JSVal → List PropName → JSVal)
    (propertyPath : PathInput) : JSVal :=
  deepMapGo callback object (getProperties propertyPath)

mutual

/-- Enumerates, in order, the (value, path) argument pairs of the callback
invocations that `deepMapValues` performs: its control flow calls the callback
exactly at the leaf branch of `deepMapGo`. -/
def deepMapCalls : JSVal → List PropName → List (JSVal × List PropName)
  | .node .objT own _, properties => deepMapCallsEntries own properties
  | .node .arrT own _, properties => deepMapCallsEntries own properties
  | object, properties => [(object, properties)]

/-- Callback invocations made while mapping a list of own entries, in entry
order. -/
def deepMapCallsEntries : List (PropName × JSVal) → List PropName → List (JSVal × List PropName)
  | [], _ => []
  | (k, v) :: rest, properties =>
    deepMapCalls v (properties ++ [k]) ++ deepMapCallsEntries rest properties

end

/-- Addresses in the store-passing model of `deepMapValues`. -/
abbrev Addr : Type := Nat

/-- Heap values: primitives are immediate, object-like values are references
into the heap.  Used to state the in-place mutation contract of
`deepMapValues`, which value-level trees cannot express. -/
inductive HVal where
  | undefined : HVal
  | num : Int → HVal
  | str : PropName → HVal
  | ref : Addr → HVal
deriving DecidableEq, Repr

/-- A heap object: its tag, its own properties and its prototype-chain
properties. -/
structure HObj where
  tag : JSTag
  own : List (PropName × HVal)
  inh : List (PropName × HVal)
deriving DecidableEq, Repr

/-- The heap: a finite map from addresses to objects. -/
abbrev Heap : Type := List (Addr × HObj)

/-- Heap lookup, first binding wins. -/
def hLookup : Heap → Addr → Option HObj
  | [], _ => none
  | (a, o) :: rest, addr => if a = addr then some o else hLookup rest addr

/-- Heap update at an address: replace the first binding in place, else
append. -/
def hUpdate : Heap → Addr → HObj → Heap
  | [], addr, o => [(addr, o)]
  | (a, p) :: rest, addr, o =>
    if a = addr then (a, o) :: rest else (a, p) :: hUpdate rest addr o

/-- Store-passing `deepMapValues` recursion (source lines 167-177), with a
fuel bound making the recursion total (JS diverges on cyclic heaps; the
source's docs put cycles out of scope).  On a reference to an object or array
the own entries are mapped left to right, threading the heap (each recursive
call runs inside the `_.mapValues` iteration), then `_.extend` writes the
mapped entries back into the object at the *same* address and the same
reference is returned.  Dates, regexes, primitives — and, vacuously, dangling
references, which JS cannot produce — are leaves passed to the callback,
which is modelled as a pure function. -/
def deepMapH (callback : HVal → List PropName → HVal) :
    Nat → Heap → HVal → List PropName → Option (Heap × HVal)
  | 0, _, _, _ => none
  | Nat.succ n, h, v, properties =>
    match v with
    | .ref a =>
      match hLookup h a with
      | some o =>
        if o.tag = .objT ∨ o.tag = .arrT then
          match
            o.own.foldl
              (fun acc kv =>
                match acc with
                | none => none
                | some (h1, done) =>
                  match deepMapH callback n h1 kv.2 (properties ++ [kv.1]) with
                  | none => none
                  | some (h2, v2) => some (h2, done ++ [(kv.1, v2)]))
              (some (h, ([] : List (PropName × HVal)))) with
          | some (h3, own3) => some (hUpdate h3 a ⟨o.tag, own3, o.inh⟩, .ref a)
          | none => none
        else some (h, callback v properties)
      | none => some (h, callback v properties)
    | _ => some (h, callback v properties)

/-- Store-passing `deepMapValues` entry point: parse the path prefix and run
the fuelled recursion. -/
def deepMapValuesH (callback : HVal → List PropName → HVal) (fuel : Nat)
    (h : Heap) (object : HVal) (propertyPath : PathInput) : Option (Heap × HVal) :=
  deepMapH callback fuel h object (getProperties propertyPath)

theorem scanPath_append (s : List Char) : ∀ (e : Bool) (path path' : List PropName) (step : PropName),
    scanPath e (path ++ path') step s = path ++ scanPath e path' step s := by
  induction s with
  | nil => intro e path path' step; simp [scanPath]
  | cons c rest ih =>
    intro e path path' step
    by_cases hbs : c = '\\'
    · subst hbs
      cases e <;> simp [scanPath, ih]
    · by_cases hdot : c = '.'
      · subst hdot
        cases e <;> simp [scanPath, hbs, ih]
      · simp [scanPath, hbs, hdot, ih]

theorem deepEscapePropertyName_cons (c : Char) (t : List Char) :
    deepEscapePropertyName (c :: t) =
      (if c = '\\' then ['\\', '\\'] else if c = '.' then ['\\', '.'] else [c]) ++
        deepEscapePropertyName t := by
  by_cases hbs : c = '\\'
  · subst hbs; simp [deepEscapePropertyName]
  · by_cases hdot : c = '.'
    · subst hdot; simp [deepEscapePropertyName]
    · simp [deepEscapePropertyName, hbs, hdot]

theorem scanPath_escaped (s : List Char) : ∀ (path : List PropName) (step : PropName),
    scanPath false path step (deepEscapePropertyName s) = path ++ [step ++ s] := by
  induction s with
  | nil => intro path step; simp [deepEscapePropertyName, scanPath]
  | cons c t ih =>
    intro path step
    rw [deepEscapePropertyName_cons]
    by_cases hbs : c = '\\'
    · subst hbs
      rw [if_pos rfl]
      show scanPath false path step ('\\' :: '\\' :: deepEscapePropertyName t) = _
      show scanPath false path (step ++ ['\\']) (deepEscapePropertyName t) = _
      rw [ih]
      simp
    · by_cases hdot : c = '.'
      · subst hdot
        rw [if_neg hbs, if_pos rfl]
        show scanPath false path step ('\\' :: '.' :: deepEscapePropertyName t) = _
        show scanPath false path (step ++ ['.']) (deepEscapePropertyName t) = _
        rw [ih]
        simp
      · rw [if_neg hbs, if_neg hdot]
        show scanPath false path step (c :: deepEscapePropertyName t) = _
        simp only [scanPath, if_neg hbs, if_neg hdot]
        rw [ih]
        simp

/-- C4: escape/parse round trip.  For every raw segment `s`, parsing the
escaped form yields exactly the one-segment path `[s]`. -/
theorem parse_escape_roundtrip (s : List Char) :
    getProperties (.str (deepEscapePropertyName s)) = [s] := by
  show scanPath false [] [] (deepEscapePropertyName s) = [s]
  rw [scanPath_escaped]
  simp

theorem scanPath_no_special (s : List Char) (h : ∀ c ∈ s, c ≠ '\\' ∧ c ≠ '.') :
    ∀ (path : List PropName) (step : PropName),
      scanPath false path step s = path ++ [step ++ s] := by
  induction s with
  | nil => intro path step; simp [scanPath]
  | cons c t ih =>
    intro path step
    obtain ⟨hbs, hdot⟩ := h c (by simp)
    have ht : ∀ c ∈ t, c ≠ '\\' ∧ c ≠ '.' := fun c hc => h c (by simp [hc])
    simp only [scanPath, if_neg hbs, if_neg hdot]
    rw [ih ht]
    simp

/-- C1 (amended): an un-escaped "]" has no delimiter role and parsing never
fails; a string containing neither "\" nor "." — such as "a[0]x" — parses
successfully to the single segment equal to the whole string, and no
SyntaxError exists to be raised. -/
theorem parse_plain_single_segment (s : List Char)
    (h : ∀ c ∈ s, c ≠ '\\' ∧ c ≠ '.') :
    getProperties (.str s) = [s] := by
  show scanPath false [] [] s = [s]
  rw [scanPath_no_special s h]
  simp

/-- C1 witness: the amended statement evaluated at the claim's example
"a[0]x". -/
theorem parse_plain_single_segment_witness :
    (∀ c ∈ (['a', '[', '0', ']', 'x'] : List Char), c ≠ '\\' ∧ c ≠ '.') ∧
      getProperties (.str ['a', '[', '0', ']', 'x']) = [['a', '[', '0', ']', 'x']] :=
  ⟨by decide, parse_plain_single_segment ['a', '[', '0', ']', 'x'] (by decide)⟩

/-- C1 counterexample: parsing "a[0]x" does not throw — `getProperties` is a
total function on strings and returns the ordinary one-segment path
["a[0]x"], contradicting the claim that a SyntaxError (carrying an offending
index and the path text) is raised. -/
theorem parse_unmatched_bracket_counterexample :
    getProperties (.str ['a', '[', '0', ']', 'x']) = [['a', '[', '0', ']', 'x']] := by
  decide

/-- C2 counterexample: parsing "a[0].b" yields the two segments
["a[0]", "b"], not the claimed three segments ["a", "0", "b"]: an un-escaped
"[" does not terminate a segment and "]" does contribute to its segment. -/
theorem parse_bracket_counterexample :
    getProperties (.str ['a', '[', '0', ']', '.', 'b']) = [['a', '[', '0', ']'], ['b']] ∧
      getProperties (.str ['a', '[', '0', ']', '.', 'b']) ≠ [['a'], ['0'], ['b']] := by
  decide

/-- C2 (amended): "[" and "]" are ordinary segment characters with no
delimiter role — only an un-escaped "." terminates a segment — so parsing
"a[0].b" yields the two-segment path ["a[0]", "b"]. -/
theorem parse_bracket_literal_segments :
    getProperties (.str ['a', '[', '0', ']', '.', 'b']) = [['a', '[', '0', ']'], ['b']] := by
  decide

/-- C3 counterexample: parse(".foo") yields ["", "foo"], keeping the leading
empty segment, not the claimed ["foo"]. -/
theorem parse_leading_dot_counterexample :
    getProperties (.str ['.', 'f', 'o', 'o']) = [[], ['f', 'o', 'o']] ∧
      getProperties (.str ['.', 'f', 'o', 'o']) ≠ [['f', 'o', 'o']] := by
  decide

/-- C3 (amended): the parser never drops a leading empty segment — a string
beginning with an un-escaped "." parses to the empty segment followed by the
parse of the rest, so parse(".foo") = ["", "foo"]. -/
theorem parse_leading_dot (s : List Char) :
    getProperties (.str ('.' :: s)) = [] :: getProperties (.str s) := by
  show scanPath false [] [] ('.' :: s) = [] :: scanPath false [] [] s
  show scanPath false [[]] [] s = _
  simpa using scanPath_append s false [[]] [] []

theorem assocGet_assocSet_self (l : List (PropName × JSVal)) (k : PropName) (v : JSVal) :
    assocGet (assocSet l k v) k = some v := by
  induction l with
  | nil => simp [assocGet, assocSet]
  | cons kv rest ih =>
    obtain ⟨k', w⟩ := kv
    by_cases h : k' = k
    · simp [assocGet, assocSet, h]
    · simp [assocGet, assocSet, h, ih]

theorem isObject_setProp (c : JSVal) (k : PropName) (v : JSVal) (hc : isObject c = true) :
    isObject (setProp c k v) = true := by
  cases c with
  | node t own inh => simp [setProp, isObject]
  | undefined => simp [isObject] at hc
  | num n => simp [isObject] at hc
  | str s => simp [isObject] at hc

theorem isObject_updateSlot (c : JSVal) (k : PropName) (v : JSVal) (hc : isObject c = true) :
    isObject (updateSlot c k v) = true := by
  cases c with
  | node t own inh =>
    by_cases h1 : (assocGet own k).isSome
    · simp [updateSlot, h1, isObject]
    · by_cases h2 : (assocGet inh k).isSome
      · simp [updateSlot, h1, h2, isObject]
      · simp [updateSlot, h1, h2, isObject]
  | undefined => simp [isObject] at hc
  | num n => simp [isObject] at hc
  | str s => simp [isObject] at hc

theorem getProp_setProp (c : JSVal) (k : PropName) (v : JSVal) (hc : isObject c = true) :
    getProp (setProp c k v) k = v := by
  cases c with
  | node t own inh => simp [setProp, getProp, assocGet_assocSet_self]
  | undefined => simp [isObject] at hc
  | num n => simp [isObject] at hc
  | str s => simp [isObject] at hc

theorem getProp_updateSlot (c : JSVal) (k : PropName) (v : JSVal) (hc : isObject c = true) :
    getProp (updateSlot c k v) k = v := by
  cases c with
  | node t own inh =>
    cases hOwn : assocGet own k with
    | some w => simp [updateSlot, hOwn, getProp, assocGet_assocSet_self]
    | none =>
      cases hInh : assocGet inh k with
      | some w => simp [updateSlot, hOwn, hInh, getProp, assocGet_assocSet_self]
      | none => simp [updateSlot, hOwn, hInh, getProp, assocGet_assocSet_self]
  | undefined => simp [isObject] at hc
  | num n => simp [isObject] at hc
  | str s => simp [isObject] at hc

theorem propIn_setProp (c : JSVal) (k : PropName) (v : JSVal) (hc : isObject c = true) :
    propIn (setProp c k v) k = true := by
  cases c with
  | node t own inh => simp [setProp, propIn, assocGet_assocSet_self]
  | undefined => simp [isObject] at hc
  | num n => simp [isObject] at hc
  | str s => simp [isObject] at hc

theorem propIn_updateSlot (c : JSVal) (k : PropName) (v : JSVal) (hc : isObject c = true) :
    propIn (updateSlot c k v) k = true := by
  cases c with
  | node t own inh =>
    cases hOwn : assocGet own k with
    | some w => simp [updateSlot, hOwn, propIn, assocGet_assocSet_self]
    | none =>
      cases hInh : assocGet inh k with
      | some w => simp [updateSlot, hOwn, hInh, propIn, assocGet_assocSet_self]
      | none => simp [updateSlot, hOwn, hInh, propIn, assocGet_assocSet_self]
  | undefined => simp [isObject] at hc
  | num n => simp [isObject] at hc
  | str s => simp [isObject] at hc

theorem deepInProps_cons_of (c : JSVal) (k : PropName) (rest : List PropName)
    (h1 : isObject c = true) (h2 : propIn c k = true) :
    deepInProps c (k :: rest) = deepInProps (getProp c k) rest := by
  simp [deepInProps, h1, h2]

theorem deepSetProps_roundtrip (props : List PropName) :
    ∀ (c v : JSVal), isObject c = true → props ≠ [] →
      deepInProps (deepSetProps c props v) props = true ∧
      props.foldl getProp (deepSetProps c props v) = v := by
  induction props with
  | nil => intro c v _ hne; exact absurd rfl hne
  | cons k rest ih =>
    intro c v hc _
    cases rest with
    | nil =>
      refine ⟨?_, ?_⟩
      · simp [deepSetProps, deepInProps, isObject_setProp c k v hc, propIn_setProp c k v hc]
      · simp [deepSetProps, List.foldl, getProp_setProp c k v hc]
    | cons k2 rest' =>
      by_cases hcur : isObject (getProp c k) = true
      · obtain ⟨ihIn, ihFold⟩ := ih (getProp c k) v hcur (by simp)
        have e1 : deepSetProps c (k :: k2 :: rest') v =
            updateSlot c k (deepSetProps (getProp c k) (k2 :: rest') v) := by
          simp [deepSetProps, hcur]
        rw [e1]
        generalize hX : deepSetProps (getProp c k) (k2 :: rest') v = X at ihIn ihFold
        refine ⟨?_, ?_⟩
        · rw [deepInProps_cons_of _ _ _ (isObject_updateSlot c k X hc)
            (propIn_updateSlot c k X hc), getProp_updateSlot c k X hc]
          exact ihIn
        · rw [List.foldl_cons, getProp_updateSlot c k X hc]
          exact ihFold
      · have hNew : isObject
            (if mod1IsZero k2 then JSVal.node .arrT [] [] else JSVal.node .objT [] []) = true := by
          cases h : mod1IsZero k2 <;> simp [isObject]
        obtain ⟨ihIn, ihFold⟩ := ih
          (if mod1IsZero k2 then JSVal.node .arrT [] [] else JSVal.node .objT [] []) v hNew
          (by simp)
        have e1 : deepSetProps c (k :: k2 :: rest') v =
            setProp c k (deepSetProps
              (if mod1IsZero k2 then JSVal.node .arrT [] [] else JSVal.node .objT [] [])
              (k2 :: rest') v) := by
          simp [deepSetProps, hcur]
        rw [e1]
        generalize hX : deepSetProps
          (if mod1IsZero k2 then JSVal.node .arrT [] [] else JSVal.node .objT [] [])
          (k2 :: rest') v = X at ihIn ihFold
        refine ⟨?_, ?_⟩
        · rw [deepInProps_cons_of _ _ _ (isObject_setProp c k X hc)
            (propIn_setProp c k X hc), getProp_setProp c k X hc]
          exact ihIn
        · rw [List.foldl_cons, getProp_setProp c k X hc]
          exact ihFold

/-- C5: set/get round trip.  For every container root, every path parsing to
a non-empty segment list and every value, retrieving the path after setting
the value at it returns exactly that value. -/
theorem deepSet_deepGet_roundtrip (c : JSVal) (p : PathInput) (v : JSVal)
    (hc : isObject c = true) (hp : getProperties p ≠ []) :
    deepGet (deepSet c p v) p = v := by
  obtain ⟨h1, h2⟩ := deepSetProps_roundtrip (getProperties p) c v hc hp
  simp [deepGet, deepSet, h1, h2]

/-- C5 witness: the round trip evaluated at the empty object, the array path
["a", "b"] and the value 7. -/
theorem deepSet_deepGet_roundtrip_witness :
    isObject (.node .objT [] []) = true ∧
      getProperties (.arr [['a'], ['b']]) ≠ [] ∧
      deepGet (deepSet (.node .objT [] []) (.arr [['a'], ['b']]) (.num 7))
        (.arr [['a'], ['b']]) = .num 7 :=
  ⟨rfl, by decide,
    deepSet_deepGet_roundtrip (.node .objT [] []) (.arr [['a'], ['b']]) (.num 7) rfl (by decide)⟩

/-- C6: autovivification chooses the created container by the next segment's
numeric-ness (`segment % 1 === 0`): set({}, "a.0.b", 1) creates an array at
"a", giving {a: [{b: 1}]}, while set({}, "a.x.b", 1) creates an object,
giving {a: {x: {b: 1}}}. -/
theorem deepSet_autovivification :
    deepSet (.node .objT [] []) (.str ['a', '.', '0', '.', 'b']) (.num 1) =
      .node .objT [(['a'], .node .arrT [(['0'], .node .objT [(['b'], .num 1)] [])] [])] [] ∧
    deepSet (.node .objT [] []) (.str ['a', '.', 'x', '.', 'b']) (.num 1) =
      .node .objT [(['a'], .node .objT [(['x'], .node .objT [(['b'], .num 1)] [])] [])] [] :=
  ⟨rfl, rfl⟩

/-- C7: for every container whose prototype chain exposes the property "x"
that the instance does not hold as an own property, `deepIn` (the `in`-based
check) sees the path "x" while `deepHas` (the own-property check) does not. -/
theorem deepIn_inherited_deepHas_own (t : JSTag) (own inh : List (PropName × JSVal))
    (v : JSVal) (hown : assocGet own ['x'] = none) (hinh : assocGet inh ['x'] = some v) :
    deepIn (.node t own inh) (.str ['x']) = true ∧
      deepHas (.node t own inh) (.str ['x']) = false := by
  have hp : getProperties (.str ['x']) = [['x']] := rfl
  refine ⟨?_, ?_⟩
  · show deepInProps (.node t own inh) (getProperties (.str ['x'])) = true
    rw [hp]
    simp [deepInProps, isObject, propIn, hown, hinh]
  · show deepHasProps (.node t own inh) (getProperties (.str ['x'])) = false
    rw [hp]
    simp [deepHasProps, hasOwnProp, hown]

/-- C7 witness: an object with no own properties whose prototype chain
exposes "x". -/
theorem deepIn_inherited_deepHas_own_witness :
    assocGet ([] : List (PropName × JSVal)) ['x'] = none ∧
      assocGet [(['x'], JSVal.num 1)] ['x'] = some (.num 1) ∧
      (deepIn (.node .objT [] [(['x'], .num 1)]) (.str ['x']) = true ∧
        deepHas (.node .objT [] [(['x'], .num 1)]) (.str ['x']) = false) :=
  ⟨rfl, rfl, deepIn_inherited_deepHas_own .objT [] [(['x'], .num 1)] (.num 1) rfl rfl⟩

/-- C8: `deepMapValues` preserves the container shape and invokes the
callback on each leaf exactly once with the leaf's accumulated path: mapping
·10 over {a: {b: 1, c: 2}} yields {a: {b: 10, c: 20}}, and the callback
invocations are exactly (1, ["a","b"]) and (2, ["a","c"]), in that order. -/
theorem deepMapValues_example :
    deepMapValues (.node .objT [(['a'], .node .objT [(['b'], .num 1), (['c'], .num 2)] [])] [])
        (fun v _ => match v with | .num n => .num (10 * n) | x => x) .other =
      .node .objT [(['a'], .node .objT [(['b'], .num 10), (['c'], .num 20)] [])] [] ∧
    deepMapCalls (.node .objT [(['a'], .node .objT [(['b'], .num 1), (['c'], .num 2)] [])] []) [] =
      [(.num 1, [['a'], ['b']]), (.num 2, [['a'], ['c']])] :=
  ⟨rfl, rfl⟩

theorem deepHasProps_imp_deepInProps (props : List PropName) :
    ∀ c : JSVal, deepHasProps c props = true → deepInProps c props = true := by
  induction props with
  | nil => intro c _; rfl
  | cons k rest ih =>
    intro c h
    simp only [deepHasProps] at h
    by_cases hobj : isObject c = true
    · by_cases hown : hasOwnProp c k = true
      · have hrest : deepHasProps (getProp c k) rest = true := by
          simpa [hobj, hown] using h
        have hin : propIn c k = true := by
          cases c with
          | node t own inh =>
            have hs : (assocGet own k).isSome = true := by simpa [hasOwnProp] using hown
            simp [propIn, hs]
          | undefined => simp [isObject] at hobj
          | num n => simp [isObject] at hobj
          | str s => simp [isObject] at hobj
        rw [deepInProps_cons_of c k rest hobj hin]
        exact ih _ hrest
      · simp [hobj, hown] at h
    · simp [hobj] at h

/-- C9: whenever the own-property walk `deepHas` accepts a collection and a
path input, the inherited-lookup walk `deepIn` accepts them too — both walks
descend through the same property reads, and an own property is always
visible to the `in` operator. -/
theorem deepHas_imp_deepIn (c : JSVal) (p : PathInput) (h : deepHas c p = true) :
    deepIn c p = true :=
  deepHasProps_imp_deepInProps (getProperties p) c h

/-- C9 witness: a two-level tree of own properties, checked with the string
path "a.b". -/
theorem deepHas_imp_deepIn_witness :
    deepHas (.node .objT [(['a'], .node .objT [(['b'], .num 1)] [])] [])
        (.str ['a', '.', 'b']) = true ∧
      deepIn (.node .objT [(['a'], .node .objT [(['b'], .num 1)] [])] [])
        (.str ['a', '.', 'b']) = true :=
  ⟨rfl, deepHas_imp_deepIn (.node .objT [(['a'], .node .objT [(['b'], .num 1)] [])] [])
    (.str ['a', '.', 'b']) rfl⟩

theorem hLookup_hUpdate (h : Heap) (a : Addr) (o : HObj) :
    hLookup (hUpdate h a o) a = some o := by
  induction h with
  | nil => simp [hUpdate, hLookup]
  | cons p rest ih =>
    obtain ⟨a', o'⟩ := p
    by_cases he : a' = a
    · simp [hUpdate, hLookup, he]
    · simp [hUpdate, hLookup, he, ih]

theorem foldl_none_of {α β : Type} (f : Option α → β → Option α)
    (hnone : ∀ b, f none b = none) :
    ∀ l : List β, l.foldl f none = none := by
  intro l
  induction l with
  | nil => rfl
  | cons b rest ih => simp [List.foldl, hnone, ih]

theorem foldl_step_keys {α : Type}
    (f : Option (Heap × List (PropName × α)) → (PropName × α) → Option (Heap × List (PropName × α)))
    (hnone : ∀ kv, f none kv = none)
    (hsome : ∀ h1 done kv r, f (some (h1, done)) kv = some r →
      r.2.map Prod.fst = done.map Prod.fst ++ [kv.1]) :
    ∀ (entries : List (PropName × α)) (h0 : Heap) (acc : List (PropName × α))
      (h3 : Heap) (own3 : List (PropName × α)),
      entries.foldl f (some (h0, acc)) = some (h3, own3) →
      own3.map Prod.fst = acc.map Prod.fst ++ entries.map Prod.fst := by
  intro entries
  induction entries with
  | nil =>
    intro h0 acc h3 own3 hfold
    simp only [List.foldl] at hfold
    obtain ⟨rfl, rfl⟩ : h0 = h3 ∧ acc = own3 := by
      have := Option.some.inj hfold
      exact ⟨congrArg Prod.fst this, congrArg Prod.snd this⟩
    simp
  | cons kv rest ih =>
    intro h0 acc h3 own3 hfold
    rw [List.foldl_cons] at hfold
    cases hf : f (some (h0, acc)) kv with
    | none =>
      rw [hf, foldl_none_of f hnone] at hfold
      exact absurd hfold (by simp)
    | some r =>
      rw [hf] at hfold
      have hkeys := hsome h0 acc kv r hf
      have := ih r.1 r.2 h3 own3 (by simpa using hfold)
      rw [this, hkeys]
      simp

/-- C10: on an object or array root, `deepMapValues` writes the recursively
mapped entries back into the object held at the root's address — same tag,
same prototype chain, same keys — and returns the very same root reference
(the same heap address, not a fresh copy), stated over the store-passing
embedding `deepMapValuesH`. -/
theorem deepMapValuesH_in_place (callback : HVal → List PropName → HVal) (n : Nat)
    (h : Heap) (a : Addr) (o : HObj) (p : PathInput) (h' : Heap) (r : HVal)
    (hl : hLookup h a = some o) (ht : o.tag = .objT ∨ o.tag = .arrT)
    (hrun : deepMapValuesH callback (n + 1) h (.ref a) p = some (h', r)) :
    r = .ref a ∧
      ∃ own', hLookup h' a = some ⟨o.tag, own', o.inh⟩ ∧
        own'.map Prod.fst = o.own.map Prod.fst := by
  simp only [deepMapValuesH, deepMapH, hl] at hrun
  rw [if_pos ht] at hrun
  split at hrun
  · next h3 own3 hfold =>
    obtain ⟨rfl, rfl⟩ : hUpdate h3 a ⟨o.tag, own3, o.inh⟩ = h' ∧ HVal.ref a = r := by
      have := Option.some.inj hrun
      exact ⟨congrArg Prod.fst this, congrArg Prod.snd this⟩
    refine ⟨rfl, own3, hLookup_hUpdate h3 a ⟨o.tag, own3, o.inh⟩, ?_⟩
    have hkeys := foldl_step_keys
      (fun acc kv =>
        match acc with
        | none => none
        | some (h1, done) =>
          match deepMapH callback n h1 kv.2 (getProperties p ++ [kv.1]) with
          | none => none
          | some (h2, v2) => some (h2, done ++ [(kv.1, v2)]))
      (fun kv => rfl)
      (fun h1 done kv r' hf => by
        have hf' : (match deepMapH callback n h1 kv.2 (getProperties p ++ [kv.1]) with
            | none => none
            | some (h2, v2) => some (h2, done ++ [(kv.1, v2)])) = some r' := hf
        clear hf
        revert hf'
        cases hm : deepMapH callback n h1 kv.2 (getProperties p ++ [kv.1]) with
        | none => intro hf'; simp at hf'
        | some pr =>
          obtain ⟨h2, v2⟩ := pr
          intro hf'
          have hf2 : some (h2, done ++ [(kv.1, v2)]) = some r' := hf'
          rw [← Option.some.inj hf2]
          simp)
      o.own h [] h3 own3 hfold
    simpa using hkeys
  · next hfold => exact absurd hrun (by simp)

/-- C10 witness: a one-entry object at address 0 mapped with the identity
callback; the run returns the same reference 0 and the object at 0 keeps its
tag, keys and prototype chain. -/
theorem deepMapValuesH_in_place_witness :
    HVal.ref 0 = HVal.ref 0 ∧
      ∃ own', hLookup [(0, ⟨.objT, [(['b'], .num 1)], []⟩)] 0 = some ⟨.objT, own', []⟩ ∧
        own'.map Prod.fst = [(['b'], HVal.num 1)].map Prod.fst :=
  deepMapValuesH_in_place (fun v _ => v) 1 [(0, ⟨.objT, [(['b'], .num 1)], []⟩)] 0
    ⟨.objT, [(['b'], .num 1)], []⟩ .other [(0, ⟨.objT, [(['b'], .num 1)], []⟩)] (.ref 0)
    rfl (Or.inl rfl) rfl
